import Mathlib

/-!
# Verification of the Monte Carlo hand-equity core (`src/App.jsx`)

Shallow embedding of the simulation core of the poker-odds app:
the card/deck model (`SUITS`, `RANKS`, `ALL_CARDS`, `makeDeck`), the
exchange shuffle (`shuffleInPlace`), and the Monte Carlo engine
(`simulateEquity`), together with the iteration clamp performed by the
`run` handler.

Modelling conventions:
* A card is its two-character string (`"As"`, `"Kh"`, ...), exactly as in
  the source; the blank board/hole slot is the empty string `""` (the
  falsy value the source tests with `!simBoard[i]` / `!hero[0]`).
* The JS `Set` built from `[...hero, ...board].filter(Boolean)` is
  modelled by `List.dedup` of the filtered list: the source only uses the
  set's size (duplicate check) and membership (`exclude.has(c)` in
  `makeDeck`), both of which `dedup` reproduces.
* `Math.random()`-driven choices are passed in explicitly: each trial
  receives the list of indices `j = Math.floor(Math.random()*(i+1))`
  consumed by `shuffleInPlace`, one list per trial via `jss : Nat → List Nat`.
* The external `pokersolver` hand evaluator is abstracted by a rank
  function `rank : List String → Nat`; `Hand.winners` returns exactly the
  hands whose rank attains the maximum, and hands are compared only
  through this total order.  All theorems hold for every such `rank`.
* JS numbers used as loop counters / player counts are embedded as `Nat`
  (`iterations`) and `Int` (`players`, which the UI never constrains
  before validation); rate arithmetic is embedded as exact `ℚ`.
-/

/-- `const SUITS = ["s", "h", "d", "c"]` -/
def SUITS : List String := ["s", "h", "d", "c"]

/-- `const RANKS = ["2", ..., "A"]` -/
def RANKS : List String :=
  ["2", "3", "4", "5", "6", "7", "8", "9", "T", "J", "Q", "K", "A"]

/-- `const ALL_CARDS = RANKS.flatMap((r) => SUITS.map((s) => r + s))` -/
def ALL_CARDS : List String := RANKS.flatMap (fun r => SUITS.map (fun s => r ++ s))

/-- `makeDeck(exclude)`: `ALL_CARDS.filter((c) => !exclude.has(c))`. -/
def makeDeck (exclude : List String) : List String :=
  ALL_CARDS.filter (fun c => !(exclude.contains c))

/-- One step of `shuffleInPlace`: `[arr[i], arr[j]] = [arr[j], arr[i]]`
(both reads happen before both writes). Out-of-range `set` is a no-op,
matching that the loop only ever uses in-range indices. -/
def swapList (l : List String) (i j : Nat) : List String :=
  (l.set i (l.getD j "")).set j (l.getD i "")

/-- The loop of `shuffleInPlace`: `i` counts down from `arr.length - 1`
while `i > 0`; each step consumes the next random index `j` (from
`Math.floor(Math.random() * (i + 1))`) and swaps positions `i` and `j`. -/
def fyGo : List String → Nat → List Nat → List String
  | arr, 0, _ => arr
  | arr, _ + 1, [] => arr
  | arr, i + 1, j :: js => fyGo (swapList arr (i + 1) j) i js

/-- `shuffleInPlace(arr)` with the stream of random indices `js` made
explicit. -/
def shuffleInPlace (arr : List String) (js : List Nat) : List String :=
  fyGo arr (arr.length - 1) js

/-- The random indices actually drawn by one call of `shuffleInPlace` on an
array of length `n`: one index per loop step `i = n-1, n-2, ..., 1`, the
`k`-th drawn index being `Math.floor(Math.random() * (i+1)) ≤ i = n-1-k`. -/
def ValidChoices (n : Nat) (js : List Nat) : Prop :=
  js.length = n - 1 ∧ ∀ k, k < js.length → js.getD k 0 ≤ n - 1 - k

instance (n : Nat) (js : List Nat) : Decidable (ValidChoices n js) := by
  unfold ValidChoices; infer_instance

/-- The board-completion loop:
`for (i = 0; i < 5; i++) if (!simBoard[i]) simBoard[i] = deck[idx++]`,
recursing over the 5-slot board array; returns the completed board and the
final cursor `idx`. -/
def fillBoard (deck : List String) : List String → Nat → List String × Nat
  | [], idx => ([], idx)
  | c :: rest, idx =>
    if c = "" then
      let r := fillBoard deck rest (idx + 1)
      (deck.getD idx "" :: r.1, r.2)
    else
      let r := fillBoard deck rest idx
      (c :: r.1, r.2)

/-- The opponent-dealing loop: for each of the `players - 1` opponents draw
`c1 = deck[idx++]`, `c2 = deck[idx++]`; returns the opponents' hole cards
and the final cursor. -/
def dealOpponents (deck : List String) : Nat → Nat → List (String × String) × Nat
  | 0, idx => ([], idx)
  | p + 1, idx =>
    let r := dealOpponents deck p (idx + 2)
    ((deck.getD idx "", deck.getD (idx + 1) "") :: r.1, r.2)

/-- Per-trial outcome for the hero. -/
inductive Outcome
  | win
  | tie
  | loss
deriving DecidableEq, Repr

/-- The classification at the end of each trial, expressed through the
abstract ranks: `Hand.winners(all)` is the set of hands attaining the
maximal rank among `all = [heroHand, ...oppHands]`; the source then does
`winners.length === 1 ? (winners[0] === heroHand ? wins++ : losses++)
 : (winners.includes(heroHand) ? ties++ : losses++)`. -/
def classify (heroRank : Nat) (oppRanks : List Nat) : Outcome :=
  let m := (heroRank :: oppRanks).foldr max 0
  let winnersCount := ((heroRank :: oppRanks).filter (fun r => r == m)).length
  if winnersCount = 1 then
    if heroRank = m then .win else .loss
  else
    if heroRank = m then .tie else .loss

/-- One trial of the `for (t = 0; t < iterations; t++)` loop:
fresh shuffled deck, complete the board, deal the opponents, rank all
hands, classify the hero's outcome. -/
def runTrial (rank : List String → Nat) (known hero board : List String)
    (players : Int) (js : List Nat) : Outcome :=
  let deck := shuffleInPlace (makeDeck known) js
  let fb := fillBoard deck board 0
  let opps := (dealOpponents deck (players - 1).toNat fb.2).1
  let heroRank := rank (hero ++ fb.1)
  let oppRanks := opps.map (fun h => rank ([h.1, h.2] ++ fb.1))
  classify heroRank oppRanks

/-- The accumulator loop of `simulateEquity`: after `n` trials, the counter
triple `(wins, ties, losses)`. -/
def simLoop (rank : List String → Nat) (known hero board : List String)
    (players : Int) (jss : Nat → List Nat) : Nat → Nat × Nat × Nat
  | 0 => (0, 0, 0)
  | t + 1 =>
    let acc := simLoop rank known hero board players jss t
    match runTrial rank known hero board players (jss t) with
    | .win => (acc.1 + 1, acc.2.1, acc.2.2)
    | .tie => (acc.1, acc.2.1 + 1, acc.2.2)
    | .loss => (acc.1, acc.2.1, acc.2.2 + 1)

/-- The object returned by `simulateEquity`:
`{ win, tie, loss, equity, iterations }` (rates, not counts). -/
structure SimResult where
  win : ℚ
  tie : ℚ
  loss : ℚ
  equity : ℚ
  iterations : Nat
deriving DecidableEq, Repr

/-- The known-card set `new Set([...hero, ...board].filter(Boolean))` as an
(order-irrelevant) duplicate-free list. -/
def knownOf (hero board : List String) : List String :=
  ((hero ++ board).filter (fun c => c != "")).dedup

/-- `simulateEquity({players, hero, board, iterations})`, with the random
stream `jss` and the `pokersolver` rank order `rank` passed explicitly.
`throw` is modelled as `Except.error` carrying the message. -/
def simulateEquity (rank : List String → Nat) (players : Int)
    (hero board : List String) (iterations : Nat) (jss : Nat → List Nat) :
    Except String SimResult :=
  let flat := (hero ++ board).filter (fun c => c != "")
  let known := knownOf hero board
  if known.length ≠ flat.length then
    .error "Duplicate cards detected. Please fix your selections."
  else if players < 2 ∨ players > 10 then
    .error "Players must be between 2 and 10."
  else if hero.getD 0 "" = "" ∨ hero.getD 1 "" = "" then
    .error "Please choose both of your hole cards."
  else
    let acc := simLoop rank known hero board players jss iterations
    let w : ℚ := (acc.1 : ℚ) / (iterations : ℚ)
    let ti : ℚ := (acc.2.1 : ℚ) / (iterations : ℚ)
    let lo : ℚ := (acc.2.2 : ℚ) / (iterations : ℚ)
    .ok { win := w, tie := ti, loss := lo, equity := w + ti / 2,
          iterations := iterations }

/-- The clamp applied by the `run` handler before calling `simulateEquity`:
`Math.max(1000, Math.min(200000, Number(iters) || 0))`. -/
def clampIters (x : Int) : Nat := (max 1000 (min 200000 x)).toNat

/-- The `run` handler's call into the core: clamp the iteration count,
then run `simulateEquity` on the otherwise untouched request. -/
def runRequest (rank : List String → Nat) (players : Int)
    (hero board : List String) (iters : Int) (jss : Nat → List Nat) :
    Except String SimResult :=
  simulateEquity rank players hero board (clampIters iters) jss

/-- A request passes the three validation checks of `simulateEquity`
(lines 95–104): no duplicate among the non-blank hero/board cards, player
count in `[2,10]`, both hero hole cards present.  This is exactly the
negation of each `throw` condition. -/
def validRequest (players : Int) (hero board : List String) : Prop :=
  ((hero ++ board).filter (fun c => c != "")).Nodup ∧
  (2 ≤ players ∧ players ≤ 10) ∧
  (hero.getD 0 "" ≠ "" ∧ hero.getD 1 "" ≠ "")

instance (players : Int) (hero board : List String) :
    Decidable (validRequest players hero board) := by
  unfold validRequest; infer_instance

/-- The mutable arrays reachable during one call of `simulateEquity`: the
caller's `hero` and `board` arrays plus the per-trial scratch arrays
(`deck`, `simBoard`), which are freshly allocated each trial (`makeDeck`
returns a new array, `.slice()` copies). -/
structure TrialState where
  heroArr : List String
  boardArr : List String
  deckArr : List String
  simBoardArr : List String
deriving DecidableEq, Repr

/-- The loop body of `simulateEquity` as a state transformer: each JS
statement that writes an array updates exactly the field of the object it
targets.  `shuffleInPlace(makeDeck(known).slice())` allocates and mutates
`deckArr`; `board.slice()` allocates `simBoardArr`; the fill loop mutates
`simBoardArr`; no statement targets `heroArr` or `boardArr`, which are
only read. -/
def trialStep (rank : List String → Nat) (known : List String) (players : Int)
    (js : List Nat) (st : TrialState) : Outcome × TrialState :=
  let st1 := { st with deckArr := shuffleInPlace (makeDeck known) js }
  let st2 := { st1 with simBoardArr := st1.boardArr }
  let fb := fillBoard st2.deckArr st2.simBoardArr 0
  let st3 := { st2 with simBoardArr := fb.1 }
  let opps := (dealOpponents st3.deckArr (players - 1).toNat fb.2).1
  let heroRank := rank (st3.heroArr ++ st3.simBoardArr)
  let oppRanks := opps.map (fun h => rank ([h.1, h.2] ++ st3.simBoardArr))
  (classify heroRank oppRanks, st3)

/-- The accumulator loop of `simulateEquity`, threading the array state. -/
def simLoopS (rank : List String → Nat) (known : List String) (players : Int)
    (jss : Nat → List Nat) : Nat → TrialState → (Nat × Nat × Nat) × TrialState
  | 0, st => ((0, 0, 0), st)
  | t + 1, st =>
    let r := simLoopS rank known players jss t st
    let tr := trialStep rank known players (jss t) r.2
    (match tr.1 with
     | .win => (r.1.1 + 1, r.1.2.1, r.1.2.2)
     | .tie => (r.1.1, r.1.2.1 + 1, r.1.2.2)
     | .loss => (r.1.1, r.1.2.1, r.1.2.2 + 1), tr.2)

/-- `simulateEquity` with the caller's arrays tracked explicitly: returns
the result together with the contents of the caller's `hero` and `board`
arrays at the moment the call returns (or throws). -/
def simulateEquityS (rank : List String → Nat) (players : Int)
    (hero board : List String) (iterations : Nat) (jss : Nat → List Nat) :
    Except String SimResult × List String × List String :=
  let flat := (hero ++ board).filter (fun c => c != "")
  let known := knownOf hero board
  let st0 : TrialState := ⟨hero, board, [], []⟩
  if known.length ≠ flat.length then
    (.error "Duplicate cards detected. Please fix your selections.",
     st0.heroArr, st0.boardArr)
  else if players < 2 ∨ players > 10 then
    (.error "Players must be between 2 and 10.", st0.heroArr, st0.boardArr)
  else if hero.getD 0 "" = "" ∨ hero.getD 1 "" = "" then
    (.error "Please choose both of your hole cards.", st0.heroArr, st0.boardArr)
  else
    let r := simLoopS rank known players jss iterations st0
    let w : ℚ := (r.1.1 : ℚ) / (iterations : ℚ)
    let ti : ℚ := (r.1.2.1 : ℚ) / (iterations : ℚ)
    let lo : ℚ := (r.1.2.2 : ℚ) / (iterations : ℚ)
    (.ok { win := w, tie := ti, loss := lo, equity := w + ti / 2,
           iterations := iterations },
     r.2.heroArr, r.2.boardArr)

example : makeDeck [] = ALL_CARDS := by decide
example : (makeDeck ["As", "Ks"]).length = 50 := by decide
example : shuffleInPlace ["As", "Ks", "Qs"] [0, 1] = ["Qs", "Ks", "As"] := by decide
example : classify 5 [3, 3] = .win := by decide
example : classify 5 [5, 3] = .tie := by decide
example : classify 5 [7, 3] = .loss := by decide
example : fillBoard ["2s", "2h", "2d"] ["As", "", "Ks", "", ""] 0 =
    (["As", "2s", "Ks", "2h", "2d"], 3) := by decide
example : dealOpponents ["2s", "2h", "2d", "2c"] 2 0 =
    ([("2s", "2h"), ("2d", "2c")], 4) := by decide

theorem dedup_length_eq_iff (l : List String) :
    l.dedup.length = l.length ↔ l.Nodup := by
  constructor
  · intro h
    have hs : l.dedup.Sublist l := l.dedup_sublist
    have he : l.dedup = l := hs.eq_of_length h
    rw [← he]
    exact l.nodup_dedup
  · intro h
    rw [List.dedup_eq_self.mpr h]

/-- For a request passing all three validation checks, `simulateEquity`
returns the rates derived from the accumulated `simLoop` counts. -/
theorem simulateEquity_ok (rank : List String → Nat) (players : Int)
    (hero board : List String) (iterations : Nat) (jss : Nat → List Nat)
    (h : validRequest players hero board) :
    simulateEquity rank players hero board iterations jss =
      .ok { win := ((simLoop rank (knownOf hero board) hero board players jss iterations).1 : ℚ) / (iterations : ℚ),
            tie := ((simLoop rank (knownOf hero board) hero board players jss iterations).2.1 : ℚ) / (iterations : ℚ),
            loss := ((simLoop rank (knownOf hero board) hero board players jss iterations).2.2 : ℚ) / (iterations : ℚ),
            equity := ((simLoop rank (knownOf hero board) hero board players jss iterations).1 : ℚ) / (iterations : ℚ) +
              (((simLoop rank (knownOf hero board) hero board players jss iterations).2.1 : ℚ) / (iterations : ℚ)) / 2,
            iterations := iterations } := by
  obtain ⟨h1, h2, h3⟩ := h
  have e1 : (knownOf hero board).length =
      ((hero ++ board).filter (fun c => c != "")).length := by
    unfold knownOf
    rw [List.dedup_eq_self.mpr h1]
  unfold simulateEquity
  rw [if_neg (by simpa using e1), if_neg (by omega), if_neg (not_or.mpr ⟨h3.1, h3.2⟩)]

theorem simLoop_sum (rank : List String → Nat) (known hero board : List String)
    (players : Int) (jss : Nat → List Nat) (n : Nat) :
    (simLoop rank known hero board players jss n).1 +
    (simLoop rank known hero board players jss n).2.1 +
    (simLoop rank known hero board players jss n).2.2 = n := by
  induction n with
  | zero => rfl
  | succ t ih =>
    unfold simLoop
    cases h : runTrial rank known hero board players (jss t) <;> simp [h] <;> omega

theorem simLoop_step (rank : List String → Nat) (known hero board : List String)
    (players : Int) (jss : Nat → List Nat) (t : Nat) :
    simLoop rank known hero board players jss (t + 1) =
      ((simLoop rank known hero board players jss t).1 + 1,
       (simLoop rank known hero board players jss t).2.1,
       (simLoop rank known hero board players jss t).2.2) ∨
    simLoop rank known hero board players jss (t + 1) =
      ((simLoop rank known hero board players jss t).1,
       (simLoop rank known hero board players jss t).2.1 + 1,
       (simLoop rank known hero board players jss t).2.2) ∨
    simLoop rank known hero board players jss (t + 1) =
      ((simLoop rank known hero board players jss t).1,
       (simLoop rank known hero board players jss t).2.1,
       (simLoop rank known hero board players jss t).2.2 + 1) := by
  have e : simLoop rank known hero board players jss (t + 1) =
      (match runTrial rank known hero board players (jss t) with
      | .win => ((simLoop rank known hero board players jss t).1 + 1,
          (simLoop rank known hero board players jss t).2.1,
          (simLoop rank known hero board players jss t).2.2)
      | .tie => ((simLoop rank known hero board players jss t).1,
          (simLoop rank known hero board players jss t).2.1 + 1,
          (simLoop rank known hero board players jss t).2.2)
      | .loss => ((simLoop rank known hero board players jss t).1,
          (simLoop rank known hero board players jss t).2.1,
          (simLoop rank known hero board players jss t).2.2 + 1)) := rfl
  rw [e]
  cases h : runTrial rank known hero board players (jss t) <;> simp [h]

/-- **C1.** For every request that passes validation and every iteration
count `n`, `simulateEquity` accepts the request, runs exactly `n` trials
(the result records `iterations = n` and the accumulator is iterated `n`
times), each trial increments exactly one of the three counters, and the
final counts satisfy `wins + ties + losses = n`. -/
theorem simulateEquity_counts (rank : List String → Nat) (players : Int)
    (hero board : List String) (n : Nat) (jss : Nat → List Nat)
    (h : validRequest players hero board) :
    (∃ res : SimResult,
        simulateEquity rank players hero board n jss = .ok res ∧
        res.iterations = n) ∧
    ((simLoop rank (knownOf hero board) hero board players jss n).1 +
     (simLoop rank (knownOf hero board) hero board players jss n).2.1 +
     (simLoop rank (knownOf hero board) hero board players jss n).2.2 = n) ∧
    (∀ t : Nat,
      simLoop rank (knownOf hero board) hero board players jss (t + 1) =
        ((simLoop rank (knownOf hero board) hero board players jss t).1 + 1,
         (simLoop rank (knownOf hero board) hero board players jss t).2.1,
         (simLoop rank (knownOf hero board) hero board players jss t).2.2) ∨
      simLoop rank (knownOf hero board) hero board players jss (t + 1) =
        ((simLoop rank (knownOf hero board) hero board players jss t).1,
         (simLoop rank (knownOf hero board) hero board players jss t).2.1 + 1,
         (simLoop rank (knownOf hero board) hero board players jss t).2.2) ∨
      simLoop rank (knownOf hero board) hero board players jss (t + 1) =
        ((simLoop rank (knownOf hero board) hero board players jss t).1,
         (simLoop rank (knownOf hero board) hero board players jss t).2.1,
         (simLoop rank (knownOf hero board) hero board players jss t).2.2 + 1)) := by
  refine ⟨⟨_, simulateEquity_ok rank players hero board n jss h, rfl⟩,
    simLoop_sum rank (knownOf hero board) hero board players jss n,
    fun t => simLoop_step rank (knownOf hero board) hero board players jss t⟩

/-- Witness for C1 at a concrete valid request. -/
theorem simulateEquity_counts_witness :
    validRequest 2 ["As", "Ks"] ["", "", "", "", ""] ∧
    (∃ res : SimResult,
        simulateEquity (fun _ => 0) 2 ["As", "Ks"] ["", "", "", "", ""] 3 (fun _ => []) = .ok res ∧
        res.iterations = 3) ∧
    ((simLoop (fun _ => 0) (knownOf ["As", "Ks"] ["", "", "", "", ""]) ["As", "Ks"] ["", "", "", "", ""] 2 (fun _ => []) 3).1 +
     (simLoop (fun _ => 0) (knownOf ["As", "Ks"] ["", "", "", "", ""]) ["As", "Ks"] ["", "", "", "", ""] 2 (fun _ => []) 3).2.1 +
     (simLoop (fun _ => 0) (knownOf ["As", "Ks"] ["", "", "", "", ""]) ["As", "Ks"] ["", "", "", "", ""] 2 (fun _ => []) 3).2.2 = 3) :=
  ⟨by decide,
   (simulateEquity_counts (fun _ => 0) 2 ["As", "Ks"] ["", "", "", "", ""] 3 (fun _ => []) (by decide)).1,
   (simulateEquity_counts (fun _ => 0) 2 ["As", "Ks"] ["", "", "", "", ""] 3 (fun _ => []) (by decide)).2.1⟩

/-- **C5.** For every accepted request with a positive iteration count, the
returned result has `win = wins/n`, `tie = ties/n`, `loss = losses/n`,
`equity = win + tie/2`, the three rates sum to exactly `1`, and
`equity ∈ [0,1]` (exact rational arithmetic). -/
theorem simulateEquity_rates (rank : List String → Nat) (players : Int)
    (hero board : List String) (n : Nat) (jss : Nat → List Nat)
    (h : validRequest players hero board) (hn : 0 < n) :
    ∃ res : SimResult,
      simulateEquity rank players hero board n jss = .ok res ∧
      res.win = ((simLoop rank (knownOf hero board) hero board players jss n).1 : ℚ) / (n : ℚ) ∧
      res.tie = ((simLoop rank (knownOf hero board) hero board players jss n).2.1 : ℚ) / (n : ℚ) ∧
      res.loss = ((simLoop rank (knownOf hero board) hero board players jss n).2.2 : ℚ) / (n : ℚ) ∧
      res.equity = res.win + res.tie / 2 ∧
      res.win + res.tie + res.loss = 1 ∧
      0 ≤ res.equity ∧ res.equity ≤ 1 := by
  refine ⟨_, simulateEquity_ok rank players hero board n jss h, rfl, rfl, rfl, rfl, ?_, ?_, ?_⟩
  · have hs := simLoop_sum rank (knownOf hero board) hero board players jss n
    have hq : ((simLoop rank (knownOf hero board) hero board players jss n).1 : ℚ) +
        ((simLoop rank (knownOf hero board) hero board players jss n).2.1 : ℚ) +
        ((simLoop rank (knownOf hero board) hero board players jss n).2.2 : ℚ) = (n : ℚ) := by
      exact_mod_cast congrArg (fun k : Nat => (k : ℚ)) hs
    have hn' : (n : ℚ) ≠ 0 := by
      exact_mod_cast Nat.pos_iff_ne_zero.mp hn
    field_simp
    linarith [hq]
  · positivity
  · have hs := simLoop_sum rank (knownOf hero board) hero board players jss n
    have hn' : (0 : ℚ) < (n : ℚ) := by exact_mod_cast hn
    set w := (simLoop rank (knownOf hero board) hero board players jss n).1 with hw
    set ti := (simLoop rank (knownOf hero board) hero board players jss n).2.1 with hti
    have hwt : (w : ℚ) + (ti : ℚ) ≤ (n : ℚ) := by
      have : w + ti ≤ n := by omega
      exact_mod_cast this
    have h1 : ((ti : ℚ) / (n : ℚ)) / 2 ≤ (ti : ℚ) / (n : ℚ) :=
      half_le_self (by positivity)
    have h2 : (w : ℚ) / (n : ℚ) + (ti : ℚ) / (n : ℚ) ≤ 1 := by
      rw [div_add_div_same, div_le_one hn']
      exact hwt
    simp only []
    linarith

/-- Witness for C5 at a concrete valid request. -/
theorem simulateEquity_rates_witness :
    validRequest 2 ["As", "Ks"] ["", "", "", "", ""] ∧ 0 < 3 ∧
    ∃ res : SimResult,
      simulateEquity (fun _ => 0) 2 ["As", "Ks"] ["", "", "", "", ""] 3 (fun _ => []) = .ok res ∧
      res.win = ((simLoop (fun _ => 0) (knownOf ["As", "Ks"] ["", "", "", "", ""]) ["As", "Ks"] ["", "", "", "", ""] 2 (fun _ => []) 3).1 : ℚ) / (3 : ℚ) ∧
      res.tie = ((simLoop (fun _ => 0) (knownOf ["As", "Ks"] ["", "", "", "", ""]) ["As", "Ks"] ["", "", "", "", ""] 2 (fun _ => []) 3).2.1 : ℚ) / (3 : ℚ) ∧
      res.loss = ((simLoop (fun _ => 0) (knownOf ["As", "Ks"] ["", "", "", "", ""]) ["As", "Ks"] ["", "", "", "", ""] 2 (fun _ => []) 3).2.2 : ℚ) / (3 : ℚ) ∧
      res.equity = res.win + res.tie / 2 ∧
      res.win + res.tie + res.loss = 1 ∧
      0 ≤ res.equity ∧ res.equity ≤ 1 :=
  ⟨by decide, by decide,
   by exact_mod_cast simulateEquity_rates (fun _ => 0) 2 ["As", "Ks"] ["", "", "", "", ""] 3 (fun _ => []) (by decide) (by decide)⟩

theorem foldrMax_mem (a : Nat) (l : List Nat) : (a :: l).foldr max 0 ∈ a :: l := by
  induction l generalizing a with
  | nil => simp
  | cons b l ih =>
    rcases max_choice a ((b :: l).foldr max 0) with h | h
    · simp only [List.foldr_cons] at h ⊢
      rw [h]
      exact List.mem_cons_self _ _
    · simp only [List.foldr_cons] at h ⊢
      rw [h]
      exact List.mem_cons_of_mem _ (ih b)

theorem le_foldrMax (l : List Nat) : ∀ x ∈ l, x ≤ l.foldr max 0 := by
  induction l with
  | nil => simp
  | cons a l ih =>
    intro x hx
    rcases List.mem_cons.mp hx with h | h
    · subst h
      exact le_max_left _ _
    · exact le_trans (ih x h) (le_max_right _ _)

/-- **C4.** In every trial the hero outcome is a win iff the hero's rank is
strictly greater than every opponent's rank; a tie iff the hero's rank
equals the maximum rank over hero and all opponents and at least one
opponent also attains that maximum; and otherwise a loss — the three
conditions are mutually exclusive and exhaustive, so exactly one outcome
is produced per trial. -/
theorem classify_spec (heroRank : Nat) (oppRanks : List Nat) :
    (classify heroRank oppRanks = .win ↔ ∀ r ∈ oppRanks, r < heroRank) ∧
    (classify heroRank oppRanks = .tie ↔
      (heroRank = (heroRank :: oppRanks).foldr max 0 ∧
       ∃ r ∈ oppRanks, r = (heroRank :: oppRanks).foldr max 0)) ∧
    (classify heroRank oppRanks = .loss ↔
      (¬ (∀ r ∈ oppRanks, r < heroRank) ∧
       ¬ (heroRank = (heroRank :: oppRanks).foldr max 0 ∧
          ∃ r ∈ oppRanks, r = (heroRank :: oppRanks).foldr max 0))) := by
  set m := (heroRank :: oppRanks).foldr max 0 with hm
  have hmem : m ∈ heroRank :: oppRanks := foldrMax_mem heroRank oppRanks
  have hle : ∀ x ∈ heroRank :: oppRanks, x ≤ m := le_foldrMax _
  have hhero : heroRank ≤ m := hle _ (List.mem_cons_self _ _)
  have hcnt : ((heroRank :: oppRanks).filter (fun r => r == m)).length
      = (heroRank :: oppRanks).count m := by
    rw [List.count, List.countP_eq_length_filter]
  have e : classify heroRank oppRanks =
      (if ((heroRank :: oppRanks).filter (fun r => r == m)).length = 1 then
        (if heroRank = m then Outcome.win else Outcome.loss)
      else (if heroRank = m then Outcome.tie else Outcome.loss)) := rfl
  by_cases hh : heroRank = m
  · have hcons : (heroRank :: oppRanks).count m = oppRanks.count m + 1 := by
      simp [List.count_cons, hh]
    by_cases hc : ((heroRank :: oppRanks).filter (fun r => r == m)).length = 1
    · have hopp0 : oppRanks.count m = 0 := by omega
      have hopp : ∀ r ∈ oppRanks, r < heroRank := by
        intro r hr
        have h1 : r ≤ m := hle r (List.mem_cons_of_mem _ hr)
        rcases lt_or_eq_of_le h1 with h2 | h2
        · omega
        · exfalso
          have : 0 < oppRanks.count m := List.count_pos_iff.mpr (h2 ▸ hr)
          omega
      have hnoopp : ¬ ∃ r ∈ oppRanks, r = m := by
        rintro ⟨r, hr, hrm⟩
        rw [hrm] at hr
        have : 0 < oppRanks.count m := List.count_pos_iff.mpr hr
        omega
      rw [e, if_pos hc, if_pos hh]
      exact ⟨iff_of_true rfl hopp,
        iff_of_false (by decide) (fun hb => hnoopp hb.2),
        iff_of_false (by decide) (fun hb => hb.1 hopp)⟩
    · have hc' : ((heroRank :: oppRanks).filter (fun r => r == m)).length ≠ 1 := hc
      have hpos : 0 < oppRanks.count m := by omega
      have hex : ∃ r ∈ oppRanks, r = m := ⟨m, List.count_pos_iff.mp hpos, rfl⟩
      rw [e, if_neg hc, if_pos hh]
      refine ⟨iff_of_false (by decide) ?_, iff_of_true rfl ⟨hh, hex⟩,
        iff_of_false (by decide) (fun hb => hb.2 ⟨hh, hex⟩)⟩
      intro hall
      obtain ⟨r, hr, hrm⟩ := hex
      have := hall r hr
      omega
  · have hlt : heroRank < m := lt_of_le_of_ne hhero hh
    have hmo : m ∈ oppRanks := by
      rcases List.mem_cons.mp hmem with h | h
      · exact absurd h.symm hh
      · exact h
    have hcl : classify heroRank oppRanks = .loss := by
      rw [e]
      by_cases hc : ((heroRank :: oppRanks).filter (fun r => r == m)).length = 1
      · rw [if_pos hc, if_neg hh]
      · rw [if_neg hc, if_neg hh]
    rw [hcl]
    refine ⟨iff_of_false (by decide) (fun hall => ?_),
      iff_of_false (by decide) (fun hb => hh hb.1),
      iff_of_true rfl ⟨fun hall => ?_, fun hb => hh hb.1⟩⟩
    · have := hall m hmo
      omega
    · have := hall m hmo
      omega

/-- Witness for C4: `classify` has no hypotheses, but instantiate it at a
concrete rank profile for concreteness. -/
theorem classify_spec_witness :
    classify 5 [3, 5] = .tie ∧
    (5 = ([5, 3, 5] : List Nat).foldr max 0 ∧ ∃ r ∈ [3, 5], r = ([5, 3, 5] : List Nat).foldr max 0) :=
  ⟨by decide, (classify_spec 5 [3, 5]).2.1.mp (by decide)⟩

theorem simulateEquity_err_dup (rank : List String → Nat) (players : Int)
    (hero board : List String) (iterations : Nat) (jss : Nat → List Nat)
    (h : ¬ ((hero ++ board).filter (fun c => c != "")).Nodup) :
    simulateEquity rank players hero board iterations jss =
      .error "Duplicate cards detected. Please fix your selections." := by
  have hne : (knownOf hero board).length ≠
      ((hero ++ board).filter (fun c => c != "")).length := by
    unfold knownOf
    intro he
    exact h ((dedup_length_eq_iff _).mp he)
  unfold simulateEquity
  rw [if_pos hne]

theorem simulateEquity_err_players (rank : List String → Nat) (players : Int)
    (hero board : List String) (iterations : Nat) (jss : Nat → List Nat)
    (h1 : ((hero ++ board).filter (fun c => c != "")).Nodup)
    (h2 : players < 2 ∨ players > 10) :
    simulateEquity rank players hero board iterations jss =
      .error "Players must be between 2 and 10." := by
  have he : (knownOf hero board).length =
      ((hero ++ board).filter (fun c => c != "")).length := by
    unfold knownOf
    rw [List.dedup_eq_self.mpr h1]
  unfold simulateEquity
  rw [if_neg (by simpa using he), if_pos h2]

theorem simulateEquity_err_hero (rank : List String → Nat) (players : Int)
    (hero board : List String) (iterations : Nat) (jss : Nat → List Nat)
    (h1 : ((hero ++ board).filter (fun c => c != "")).Nodup)
    (h2 : ¬ (players < 2 ∨ players > 10))
    (h3 : hero.getD 0 "" = "" ∨ hero.getD 1 "" = "") :
    simulateEquity rank players hero board iterations jss =
      .error "Please choose both of your hole cards." := by
  have he : (knownOf hero board).length =
      ((hero ++ board).filter (fun c => c != "")).length := by
    unfold knownOf
    rw [List.dedup_eq_self.mpr h1]
  unfold simulateEquity
  rw [if_neg (by simpa using he), if_neg h2, if_pos h3]

/-- `simulateEquity` reports an error exactly on the requests that fail one
of the three validation checks. -/
theorem simulateEquity_error_iff_invalid (rank : List String → Nat) (players : Int)
    (hero board : List String) (iterations : Nat) (jss : Nat → List Nat) :
    (∃ e, simulateEquity rank players hero board iterations jss = .error e) ↔
      ¬ validRequest players hero board := by
  constructor
  · rintro ⟨e, he⟩ hv
    rw [simulateEquity_ok rank players hero board iterations jss hv] at he
    exact Except.noConfusion he
  · intro hv
    by_cases h1 : ((hero ++ board).filter (fun c => c != "")).Nodup
    · by_cases h2 : players < 2 ∨ players > 10
      · exact ⟨_, simulateEquity_err_players rank players hero board iterations jss h1 h2⟩
      · by_cases h3 : hero.getD 0 "" = "" ∨ hero.getD 1 "" = ""
        · exact ⟨_, simulateEquity_err_hero rank players hero board iterations jss h1 h2 h3⟩
        · exact absurd ⟨h1, by omega, not_or.mp h3⟩ hv
    · exact ⟨_, simulateEquity_err_dup rank players hero board iterations jss h1⟩

/-- **C2.** `simulateEquity` throws a validation error if and only if the
player count is outside `[2,10]`, or hero is missing a hole card, or a
duplicate card occurs among the non-blank hero/board inputs; moreover a
failing request produces the very same error for every rank function,
random stream, and iteration count — no trial is executed and no partial
result is produced. -/
theorem simulateEquity_validation (rank : List String → Nat) (players : Int)
    (hero board : List String) (iterations : Nat) (jss : Nat → List Nat) :
    ((∃ e, simulateEquity rank players hero board iterations jss = .error e) ↔
      ((players < 2 ∨ players > 10) ∨
       (hero.getD 0 "" = "" ∨ hero.getD 1 "" = "") ∨
       ¬ ((hero ++ board).filter (fun c => c != "")).Nodup)) ∧
    (∀ e, simulateEquity rank players hero board iterations jss = .error e →
      ∀ (rank' : List String → Nat) (iterations' : Nat) (jss' : Nat → List Nat),
        simulateEquity rank' players hero board iterations' jss' = .error e) := by
  constructor
  · rw [simulateEquity_error_iff_invalid]
    unfold validRequest
    constructor
    · intro hv
      by_contra hc
      push_neg at hc
      exact hv ⟨hc.2.2, by omega, hc.2.1⟩
    · rintro (h | h | h) ⟨v1, v2, v3⟩
      · omega
      · rcases h with h | h
        · exact v3.1 h
        · exact v3.2 h
      · exact h v1
  · intro e he rank' iterations' jss'
    by_cases h1 : ((hero ++ board).filter (fun c => c != "")).Nodup
    · by_cases h2 : players < 2 ∨ players > 10
      · rw [simulateEquity_err_players rank players hero board iterations jss h1 h2] at he
        rw [simulateEquity_err_players rank' players hero board iterations' jss' h1 h2]
        exact he
      · by_cases h3 : hero.getD 0 "" = "" ∨ hero.getD 1 "" = ""
        · rw [simulateEquity_err_hero rank players hero board iterations jss h1 h2 h3] at he
          rw [simulateEquity_err_hero rank' players hero board iterations' jss' h1 h2 h3]
          exact he
        · have hv : validRequest players hero board := ⟨h1, by omega, not_or.mp h3⟩
          rw [simulateEquity_ok rank players hero board iterations jss hv] at he
          exact Except.noConfusion he
    · rw [simulateEquity_err_dup rank players hero board iterations jss h1] at he
      rw [simulateEquity_err_dup rank' players hero board iterations' jss' h1]
      exact he

/-- Witness for C2: the spec's duplicate-rejection example `hero = {As,As}`
fails with the duplicate-card error. -/
theorem simulateEquity_validation_witness :
    (∃ e, simulateEquity (fun _ => 0) 2 ["As", "As"] ["", "", "", "", ""] 5 (fun _ => []) = .error e) ∧
    simulateEquity (fun _ => 0) 2 ["As", "As"] ["", "", "", "", ""] 5 (fun _ => []) =
      .error "Duplicate cards detected. Please fix your selections." :=
  ⟨(simulateEquity_validation (fun _ => 0) 2 ["As", "As"] ["", "", "", "", ""] 5 (fun _ => [])).1.mpr
     (Or.inr (Or.inr (by decide))),
   simulateEquity_err_dup (fun _ => 0) 2 ["As", "As"] ["", "", "", "", ""] 5 (fun _ => []) (by decide)⟩

/-- **C3.** For every submitted request the `run` handler clamps the
iteration count into `[1000, 200000]` before any trial executes: values
below `1000` become `1000`, values above `200000` become `200000`,
in-range values pass through, and `run` calls `simulateEquity` with
exactly the clamped count.  An out-of-range iteration count never causes
a rejection: whether `simulateEquity` errors does not depend on the
iteration count at all. -/
theorem runRequest_clamps (rank : List String → Nat) (players : Int)
    (hero board : List String) (iters : Int) (jss : Nat → List Nat) :
    (1000 ≤ clampIters iters ∧ clampIters iters ≤ 200000) ∧
    (iters < 1000 → clampIters iters = 1000) ∧
    (iters > 200000 → clampIters iters = 200000) ∧
    (1000 ≤ iters → iters ≤ 200000 → (clampIters iters : Int) = iters) ∧
    runRequest rank players hero board iters jss =
      simulateEquity rank players hero board (clampIters iters) jss ∧
    (∀ n n' : Nat,
      ((∃ e, simulateEquity rank players hero board n jss = .error e) ↔
       (∃ e, simulateEquity rank players hero board n' jss = .error e))) := by
  refine ⟨⟨?_, ?_⟩, ?_, ?_, ?_, rfl, ?_⟩
  · unfold clampIters
    omega
  · unfold clampIters
    omega
  · intro h
    unfold clampIters
    omega
  · intro h
    unfold clampIters
    omega
  · intro h1 h2
    unfold clampIters
    omega
  · intro n n'
    rw [simulateEquity_error_iff_invalid, simulateEquity_error_iff_invalid]

/-- Witness for C3: a concrete out-of-range request (`iters = 17`) is
clamped to `1000` and, on a valid request, produces no error. -/
theorem runRequest_clamps_witness :
    clampIters 17 = 1000 ∧
    ((∃ e, simulateEquity (fun _ => 0) 2 ["As", "Ks"] ["", "", "", "", ""] (clampIters 17) (fun _ => []) = .error e) ↔
     (∃ e, simulateEquity (fun _ => 0) 2 ["As", "Ks"] ["", "", "", "", ""] 5 (fun _ => []) = .error e)) :=
  ⟨(runRequest_clamps (fun _ => 0) 2 ["As", "Ks"] ["", "", "", "", ""] 17 (fun _ => [])).2.1 (by decide),
   (runRequest_clamps (fun _ => 0) 2 ["As", "Ks"] ["", "", "", "", ""] 17 (fun _ => [])).2.2.2.2.2 (clampIters 17) 5⟩

theorem length_filter_partition (l : List String) (p : String → Bool) :
    l.length = (l.filter p).length + (l.filter (fun a => !(p a))).length := by
  induction l with
  | nil => rfl
  | cons a l ih =>
    by_cases h : p a = true
    · simp only [List.filter_cons, h, cond_true, Bool.not_true, List.length_cons, ih]
      simp
      omega
    · simp only [List.filter_cons, List.length_cons, ih]
      simp [h]
      omega

theorem nodup_perm_of_mem_iff (l₁ l₂ : List String) (h1 : l₁.Nodup) (h2 : l₂.Nodup)
    (hs1 : l₁ ⊆ l₂) (hs2 : l₂ ⊆ l₁) : List.Perm l₁ l₂ :=
  (h1.subperm hs1).antisymm (h2.subperm hs2)

theorem ALL_CARDS_nodup : ALL_CARDS.Nodup := by decide

theorem ALL_CARDS_length : ALL_CARDS.length = 52 := by decide

/-- **C6.** For every set of known cards (a duplicate-free list of cards
drawn from the 52-card universe), `makeDeck` returns exactly the universe
minus the known set: it is a sublist of `ALL_CARDS` (so the canonical
rank-major, suit-minor order is preserved), has no duplicates, its members
are precisely the universe cards not in `known`, and its length is
`52 - |known|`. -/
theorem makeDeck_spec (known : List String)
    (hsub : ∀ c ∈ known, c ∈ ALL_CARDS) (hnd : known.Nodup) :
    (makeDeck known).Sublist ALL_CARDS ∧
    (makeDeck known).Nodup ∧
    (∀ c, c ∈ makeDeck known ↔ (c ∈ ALL_CARDS ∧ c ∉ known)) ∧
    (makeDeck known).length = 52 - known.length := by
  refine ⟨List.filter_sublist _, ALL_CARDS_nodup.filter _, ?_, ?_⟩
  · intro c
    simp [makeDeck, List.mem_filter]
  · have hperm : List.Perm (ALL_CARDS.filter (fun c => known.contains c)) known := by
      refine nodup_perm_of_mem_iff _ _ (ALL_CARDS_nodup.filter _) hnd ?_ ?_
      · intro c hc
        rcases List.mem_filter.mp hc with ⟨_, hck⟩
        simpa using hck
      · intro c hc
        exact List.mem_filter.mpr ⟨hsub c hc, by simpa using hc⟩
    have hpart := length_filter_partition ALL_CARDS (fun c => known.contains c)
    have hlen : (ALL_CARDS.filter (fun c => known.contains c)).length = known.length :=
      hperm.length_eq
    have h52 : ALL_CARDS.length = 52 := ALL_CARDS_length
    unfold makeDeck
    omega

/-- Witness for C6 at the concrete known set `{As, Ks}`. -/
theorem makeDeck_spec_witness :
    ((∀ c ∈ ["As", "Ks"], c ∈ ALL_CARDS) ∧ (["As", "Ks"] : List String).Nodup) ∧
    ((makeDeck ["As", "Ks"]).Sublist ALL_CARDS ∧
     (makeDeck ["As", "Ks"]).Nodup ∧
     (∀ c, c ∈ makeDeck ["As", "Ks"] ↔ (c ∈ ALL_CARDS ∧ c ∉ ["As", "Ks"])) ∧
     (makeDeck ["As", "Ks"]).length = 52 - (["As", "Ks"] : List String).length) :=
  ⟨⟨by decide, by decide⟩, makeDeck_spec ["As", "Ks"] (by decide) (by decide)⟩

theorem swapList_length (l : List String) (i j : Nat) :
    (swapList l i j).length = l.length := by
  simp [swapList]

theorem fyGo_length (arr : List String) (i : Nat) (js : List Nat) :
    (fyGo arr i js).length = arr.length := by
  induction js generalizing arr i with
  | nil => cases i <;> simp [fyGo]
  | cons j js ih =>
    cases i with
    | zero => simp [fyGo]
    | succ i => simp [fyGo, ih, swapList_length]

theorem shuffleInPlace_length (arr : List String) (js : List Nat) :
    (shuffleInPlace arr js).length = arr.length :=
  fyGo_length arr (arr.length - 1) js

theorem fillBoard_idx (deck board : List String) (idx : Nat) :
    (fillBoard deck board idx).2 = idx + (board.filter (fun c => c == "")).length := by
  induction board generalizing idx with
  | nil => simp [fillBoard]
  | cons c rest ih =>
    by_cases h : c = ""
    · simp only [fillBoard, if_pos h, List.filter_cons, h]
      simp [ih]
      omega
    · simp only [fillBoard, if_neg h, List.filter_cons]
      have hb : (c == "") = false := by simpa using h
      simp [hb, ih]

theorem dealOpponents_idx (deck : List String) (count idx : Nat) :
    (dealOpponents deck count idx).2 = idx + 2 * count := by
  induction count generalizing idx with
  | zero => simp [dealOpponents]
  | succ p ih =>
    simp [dealOpponents, ih]
    omega

theorem hero_filter_eq (hero : List String) (hhl : hero.length = 2)
    (h0 : hero.getD 0 "" ≠ "") (h1 : hero.getD 1 "" ≠ "") :
    hero.filter (fun c => c != "") = hero := by
  rcases List.length_eq_two.mp hhl with ⟨a, b, rfl⟩
  simp only [List.getD] at h0 h1
  simp at h0 h1
  simp [h0, h1]

/-- The number of universe cards excluded by `makeDeck` is at most the size
of the (duplicate-free) exclusion set, so the deck keeps at least
`52 - |known|` cards. -/
theorem makeDeck_length_ge (known : List String) :
    52 ≤ (makeDeck known).length + known.length := by
  have hpart := length_filter_partition ALL_CARDS (fun c => known.contains c)
  have hle : (ALL_CARDS.filter (fun c => known.contains c)).length ≤ known.length := by
    refine List.Subperm.length_le ((ALL_CARDS_nodup.filter _).subperm ?_)
    intro c hc
    have := (List.mem_filter.mp hc).2
    simpa using this
  have h52 : ALL_CARDS.length = 52 := ALL_CARDS_length
  unfold makeDeck
  omega

/-- **C8.** For every request that passes validation, the number of cards a
trial consumes — `(players-1)*2` plus the number of unknown board slots —
is at most `52 - |known|`, which in turn is at most the size of the
exclusion-filtered deck; hence the final value of the deck cursor after
completing the board and dealing every opponent never exceeds the length
of the shuffled deck, so every deck access of the trial is in bounds. -/
theorem trial_in_bounds (players : Int) (hero board : List String)
    (hv : validRequest players hero board)
    (hhl : hero.length = 2) (hbl : board.length = 5) :
    2 * (players - 1).toNat + (board.filter (fun c => c == "")).length ≤
      52 - (knownOf hero board).length ∧
    52 - (knownOf hero board).length ≤ (makeDeck (knownOf hero board)).length ∧
    (∀ js : List Nat,
      (dealOpponents (shuffleInPlace (makeDeck (knownOf hero board)) js)
        (players - 1).toNat
        (fillBoard (shuffleInPlace (makeDeck (knownOf hero board)) js) board 0).2).2 ≤
      (shuffleInPlace (makeDeck (knownOf hero board)) js).length) := by
  obtain ⟨h1, h2, h3⟩ := hv
  have hknown : (knownOf hero board).length =
      ((hero ++ board).filter (fun c => c != "")).length := by
    unfold knownOf
    rw [List.dedup_eq_self.mpr h1]
  have hfl : ((hero ++ board).filter (fun c => c != "")).length =
      2 + (board.filter (fun c => c != "")).length := by
    rw [List.filter_append, List.length_append, hero_filter_eq hero hhl h3.1 h3.2, hhl]
  have hne : board.filter (fun c => c != "") = board.filter (fun a => !(a == "")) := rfl
  have hpart := length_filter_partition board (fun c => c == "")
  rw [← hne, hbl] at hpart
  have hp : (players - 1).toNat ≤ 9 := by omega
  have hge := makeDeck_length_ge (knownOf hero board)
  refine ⟨by omega, by omega, ?_⟩
  intro js
  rw [dealOpponents_idx, fillBoard_idx, shuffleInPlace_length]
  omega

/-- Witness for C8 at a concrete valid request with two known board cards. -/
theorem trial_in_bounds_witness :
    (validRequest 10 ["As", "Ks"] ["Qd", "Jd", "", "", ""] ∧
     (["As", "Ks"] : List String).length = 2 ∧
     (["Qd", "Jd", "", "", ""] : List String).length = 5) ∧
    2 * ((10 : Int) - 1).toNat +
        (["Qd", "Jd", "", "", ""].filter (fun c => c == "")).length ≤
      52 - (knownOf ["As", "Ks"] ["Qd", "Jd", "", "", ""]).length ∧
    52 - (knownOf ["As", "Ks"] ["Qd", "Jd", "", "", ""]).length ≤
      (makeDeck (knownOf ["As", "Ks"] ["Qd", "Jd", "", "", ""])).length :=
  ⟨⟨by decide, by decide, by decide⟩,
   (trial_in_bounds 10 ["As", "Ks"] ["Qd", "Jd", "", "", ""] (by decide) (by decide) (by decide)).1,
   (trial_in_bounds 10 ["As", "Ks"] ["Qd", "Jd", "", "", ""] (by decide) (by decide) (by decide)).2.1⟩

theorem set_getElem_self (l : List String) (n : Nat) (h : n < l.length) :
    l.set n l[n] = l := by
  apply List.ext_getElem
  · simp
  · intro i h1 h2
    rw [List.getElem_set]
    split
    · next heq => subst heq; rfl
    · rfl

theorem getD_set_ne (l : List String) (i j : Nat) (a : String) (h : i ≠ j) :
    (l.set i a).getD j "" = l.getD j "" := by
  by_cases hj : j < l.length
  · rw [List.getD_eq_getElem _ _ (by simpa using hj), List.getD_eq_getElem _ _ hj]
    exact List.getElem_set_ne h _
  · rw [List.getD_eq_default _ _ (by simpa using Nat.le_of_not_lt hj),
      List.getD_eq_default _ _ (Nat.le_of_not_lt hj)]

theorem count_set_add (l : List String) (n : Nat) (a x : String) (hn : n < l.length) :
    (l.set n a).count x + (if l.getD n "" = x then 1 else 0) =
      l.count x + (if a = x then 1 else 0) := by
  induction l generalizing n with
  | nil => simp at hn
  | cons b t ih =>
    cases n with
    | zero =>
      simp only [List.set_cons_zero, List.getD_cons_zero]
      by_cases hax : a = x <;> by_cases hbx : b = x <;>
        simp [List.count_cons, hax, hbx]
    | succ n =>
      have hn' : n < t.length := by simpa using hn
      have hrec := ih n hn'
      simp only [List.set_cons_succ, List.getD_cons_succ, List.count_cons]
      split_ifs at hrec ⊢ <;> omega

theorem swapList_perm (l : List String) (i j : Nat) (hi : i < l.length) (hj : j < l.length) :
    List.Perm (swapList l i j) l := by
  rcases eq_or_ne i j with rfl | hne
  · have he : swapList l i i = l := by
      unfold swapList
      rw [List.getD_eq_getElem _ _ hi, List.set_set, set_getElem_self l i hi]
    rw [he]
  · rw [List.perm_iff_count]
    intro x
    have hjA : j < (l.set i (l.getD j "")).length := by simpa using hj
    have e1 := count_set_add (l.set i (l.getD j "")) j (l.getD i "") x hjA
    have e2 := count_set_add l i (l.getD j "") x hi
    rw [getD_set_ne l i j _ hne] at e1
    unfold swapList
    omega

theorem fyGo_perm (arr : List String) (i : Nat) (js : List Nat)
    (hi : i < arr.length) (hjs : ∀ k, k < js.length → js.getD k 0 ≤ i - k) :
    List.Perm (fyGo arr i js) arr := by
  induction js generalizing arr i with
  | nil => cases i <;> simp [fyGo]
  | cons j js ih =>
    cases i with
    | zero => simp [fyGo]
    | succ i =>
      have hj : j ≤ i + 1 := by
        have := hjs 0 (by simp)
        simpa using this
      have hperm := swapList_perm arr (i + 1) j hi (lt_of_le_of_lt (by omega) hi)
      refine List.Perm.trans (ih (swapList arr (i + 1) j) i ?_ ?_) hperm
      · rw [swapList_length]
        omega
      · intro k hk
        have := hjs (k + 1) (by simpa using hk)
        simpa using this

/-- `shuffleInPlace` returns a permutation of its input, for every valid
stream of random indices. -/
theorem shuffleInPlace_perm (arr : List String) (js : List Nat)
    (hjs : ValidChoices arr.length js) :
    List.Perm (shuffleInPlace arr js) arr := by
  cases arr with
  | nil =>
    unfold shuffleInPlace
    cases js <;> simp [fyGo]
  | cons a t =>
    refine fyGo_perm (a :: t) ((a :: t).length - 1) js (by simp) ?_
    intro k hk
    exact hjs.2 k hk

/-- The completed board holds exactly the fixed board cards plus the
consecutive run of deck cards starting at the cursor (as a multiset). -/

theorem fillBoard_fst_perm (deck : List String) (board : List String) (idx : Nat)
    (hb : idx + (board.filter (fun c => c == "")).length ≤ deck.length) :
    List.Perm (fillBoard deck board idx).1
      (board.filter (fun c => c != "") ++
        (deck.drop idx).take ((board.filter (fun c => c == "")).length)) := by
  induction board generalizing idx with
  | nil => simp [fillBoard]
  | cons c rest ih =>
    by_cases h : c = ""
    · subst h
      have hcnt : ((("" :: rest)).filter (fun c => c == "")).length =
          (rest.filter (fun c => c == "")).length + 1 := by
        simp [List.filter_cons]
      rw [hcnt] at hb
      have hidx : idx < deck.length := by omega
      have hb' : (idx + 1) + (rest.filter (fun c => c == "")).length ≤ deck.length := by
        omega
      simp only [fillBoard, List.filter_cons]
      norm_num
      rw [List.drop_eq_getElem_cons hidx, List.take_succ_cons]
      have hgd : deck[idx]?.getD "" = deck[idx] := by
        rw [List.getElem?_eq_getElem hidx]
        rfl
      rw [hgd]
      exact ((ih (idx + 1) hb').cons deck[idx]).trans List.perm_middle.symm
    · have hbeq : (c == "") = false := by simpa using h
      have hkeep : (c != "") = true := by simpa using h
      have hb' : idx + (rest.filter (fun c => c == "")).length ≤ deck.length := by
        have he : (((c :: rest)).filter (fun c => c == "")).length =
            (rest.filter (fun c => c == "")).length := by
          simp [List.filter_cons, hbeq]
        omega
      simp only [fillBoard, if_neg h, List.filter_cons, hbeq, hkeep]
      norm_num
      exact ih idx hb'

/-- The opponents' cards, flattened in deal order, are exactly the
consecutive run of `2*count` deck cards starting at the cursor. -/
theorem dealOpponents_flat (deck : List String) (count idx : Nat)
    (hb : idx + 2 * count ≤ deck.length) :
    ((dealOpponents deck count idx).1.flatMap (fun h => [h.1, h.2])) =
      (deck.drop idx).take (2 * count) := by
  induction count generalizing idx with
  | zero => simp [dealOpponents]
  | succ p ih =>
    have h1 : idx < deck.length := by omega
    have h2 : idx + 1 < deck.length := by omega
    have hb' : (idx + 2) + 2 * p ≤ deck.length := by omega
    have hm : 2 * (p + 1) = (2 * p + 1) + 1 := by omega
    rw [hm, List.drop_eq_getElem_cons h1, List.take_succ_cons,
      List.drop_eq_getElem_cons h2, List.take_succ_cons]
    simp only [dealOpponents, List.flatMap_cons]
    rw [ih (idx + 2) hb']
    rw [List.getD_eq_getElem deck "" h1, List.getD_eq_getElem deck "" h2]
    simp

theorem required_le_deck (players : Int) (hero board : List String)
    (hv : validRequest players hero board) (hhl : hero.length = 2) (hbl : board.length = 5) :
    (board.filter (fun c => c == "")).length + 2 * (players - 1).toNat ≤
      (makeDeck (knownOf hero board)).length := by
  obtain ⟨h1, h2, h3⟩ := hv
  have hknown : (knownOf hero board).length =
      ((hero ++ board).filter (fun c => c != "")).length := by
    unfold knownOf
    rw [List.dedup_eq_self.mpr h1]
  have hfl : ((hero ++ board).filter (fun c => c != "")).length =
      2 + (board.filter (fun c => c != "")).length := by
    rw [List.filter_append, List.length_append, hero_filter_eq hero hhl h3.1 h3.2, hhl]
  have hne : board.filter (fun c => c != "") = board.filter (fun a => !(a == "")) := rfl
  have hpart := length_filter_partition board (fun c => c == "")
  rw [← hne, hbl] at hpart
  have hp : (players - 1).toNat ≤ 9 := by omega
  have hge := makeDeck_length_ge (knownOf hero board)
  omega

/-- **C7.** Within every trial of a validated request: the hero's two
cards, every opponent's two cards, and the five completed board cards are
pairwise distinct (their concatenation has no duplicate); no card of the
shuffled deck — hence no sampled card — belongs to the known excluded-card
set; and the deck cursor advances monotonically, finishing the board fill
at position `u` (the number of blank slots) and the opponent deal at
`u + 2*(players-1)`, so no position is ever revisited. -/
theorem trial_no_duplicates (players : Int) (hero board : List String) (js : List Nat)
    (hv : validRequest players hero board) (hhl : hero.length = 2) (hbl : board.length = 5)
    (hjs : ValidChoices (makeDeck (knownOf hero board)).length js) :
    (hero ++
      (fillBoard (shuffleInPlace (makeDeck (knownOf hero board)) js) board 0).1 ++
      ((dealOpponents (shuffleInPlace (makeDeck (knownOf hero board)) js)
          (players - 1).toNat
          (fillBoard (shuffleInPlace (makeDeck (knownOf hero board)) js) board 0).2).1.flatMap
        (fun h => [h.1, h.2]))).Nodup ∧
    (∀ c ∈ shuffleInPlace (makeDeck (knownOf hero board)) js, c ∉ knownOf hero board) ∧
    (fillBoard (shuffleInPlace (makeDeck (knownOf hero board)) js) board 0).2 =
      (board.filter (fun c => c == "")).length ∧
    (dealOpponents (shuffleInPlace (makeDeck (knownOf hero board)) js)
        (players - 1).toNat
        (fillBoard (shuffleInPlace (makeDeck (knownOf hero board)) js) board 0).2).2 =
      (board.filter (fun c => c == "")).length + 2 * (players - 1).toNat := by
  set known := knownOf hero board with hkdef
  set deck := shuffleInPlace (makeDeck known) js with hddef
  have hdperm : List.Perm deck (makeDeck known) := shuffleInPlace_perm _ js hjs
  have hdlen : deck.length = (makeDeck known).length := shuffleInPlace_length _ _
  have hreq := required_le_deck players hero board hv hhl hbl
  have hbound : (board.filter (fun c => c == "")).length + 2 * (players - 1).toNat ≤
      deck.length := by
    rw [hdlen]
    exact hreq
  have hidx : (fillBoard deck board 0).2 = (board.filter (fun c => c == "")).length := by
    rw [fillBoard_idx, Nat.zero_add]
  have hsb := fillBoard_fst_perm deck board 0 (by omega)
  rw [List.drop_zero] at hsb
  have hopp := dealOpponents_flat deck (players - 1).toNat ((fillBoard deck board 0).2)
    (by rw [hidx]; omega)
  rw [hidx] at hopp
  have hmk_nodup : (makeDeck known).Nodup := ALL_CARDS_nodup.filter _
  have hdnodup : deck.Nodup := hdperm.nodup_iff.mpr hmk_nodup
  have hexcl : ∀ c ∈ deck, c ∉ known := by
    intro c hc
    have hcm : c ∈ makeDeck known := hdperm.mem_iff.mp hc
    have := (List.mem_filter.mp hcm).2
    simpa using this
  have hkeq : known = (hero ++ board).filter (fun c => c != "") := by
    rw [hkdef]
    unfold knownOf
    exact List.dedup_eq_self.mpr hv.1
  refine ⟨?_, hexcl, hidx, by rw [dealOpponents_idx, hidx]⟩
  rw [hidx]
  have hperm1 : List.Perm
      (hero ++ (fillBoard deck board 0).1 ++
        ((dealOpponents deck (players - 1).toNat
            ((board.filter (fun c => c == "")).length)).1.flatMap
          (fun h => [h.1, h.2])))
      (hero ++ ((board.filter (fun c => c != "") ++
        deck.take ((board.filter (fun c => c == "")).length)) ++
        ((deck.drop ((board.filter (fun c => c == "")).length)).take
          (2 * (players - 1).toNat)))) := by
    rw [hopp, List.append_assoc]
    exact List.Perm.append_left hero (hsb.append_right _)
  have heq2 : (hero ++ ((board.filter (fun c => c != "") ++
        deck.take ((board.filter (fun c => c == "")).length)) ++
        ((deck.drop ((board.filter (fun c => c == "")).length)).take
          (2 * (players - 1).toNat)))) =
      ((hero ++ board.filter (fun c => c != "")) ++
        deck.take ((board.filter (fun c => c == "")).length +
          2 * (players - 1).toNat)) := by
    rw [List.take_add]
    simp [List.append_assoc]
  have hA : hero ++ board.filter (fun c => c != "") =
      (hero ++ board).filter (fun c => c != "") := by
    rw [List.filter_append, hero_filter_eq hero hhl hv.2.2.1 hv.2.2.2]
  have hTnodup : ((hero ++ board.filter (fun c => c != "")) ++
      deck.take ((board.filter (fun c => c == "")).length +
        2 * (players - 1).toNat)).Nodup := by
    refine List.Nodup.append ?_ ?_ ?_
    · rw [hA]
      exact hv.1
    · exact (List.take_sublist _ _).nodup hdnodup
    · intro a ha hb
      have ha' : a ∈ known := by
        rw [hkeq, ← hA]
        exact ha
      have hbd : a ∈ deck := (List.take_sublist _ _).subset hb
      exact hexcl a hbd ha'
  rw [heq2] at hperm1
  exact hperm1.nodup_iff.mpr hTnodup

/-- Witness for C7: the spec's exclusion example `hero={As,Ks}`,
`board={Qd,Jd,Td}` with a concrete valid choice stream. -/
theorem trial_no_duplicates_witness :
    ValidChoices (makeDeck (knownOf ["As", "Ks"] ["Qd", "Jd", "Td", "", ""])).length
      (List.replicate 46 0) ∧
    (∀ c ∈ shuffleInPlace (makeDeck (knownOf ["As", "Ks"] ["Qd", "Jd", "Td", "", ""]))
        (List.replicate 46 0), c ∉ knownOf ["As", "Ks"] ["Qd", "Jd", "Td", "", ""]) :=
  ⟨by decide,
   (trial_no_duplicates 2 ["As", "Ks"] ["Qd", "Jd", "Td", "", ""] (List.replicate 46 0)
     (by decide) (by decide) (by decide) (by decide)).2.1⟩

theorem trialStep_fst (rank : List String → Nat) (known : List String) (players : Int)
    (js : List Nat) (st : TrialState) :
    (trialStep rank known players js st).1 =
      runTrial rank known st.heroArr st.boardArr players js := rfl

theorem trialStep_snd_hero (rank : List String → Nat) (known : List String) (players : Int)
    (js : List Nat) (st : TrialState) :
    (trialStep rank known players js st).2.heroArr = st.heroArr := rfl

theorem trialStep_snd_board (rank : List String → Nat) (known : List String) (players : Int)
    (js : List Nat) (st : TrialState) :
    (trialStep rank known players js st).2.boardArr = st.boardArr := rfl

/-- The trial loop never writes the caller's `hero` or `board` arrays. -/
theorem simLoopS_state (rank : List String → Nat) (known : List String) (players : Int)
    (jss : Nat → List Nat) (n : Nat) (st : TrialState) :
    (simLoopS rank known players jss n st).2.heroArr = st.heroArr ∧
    (simLoopS rank known players jss n st).2.boardArr = st.boardArr := by
  induction n with
  | zero => exact ⟨rfl, rfl⟩
  | succ t ih =>
    have e2 : (simLoopS rank known players jss (t + 1) st).2 =
        (trialStep rank known players (jss t)
          ((simLoopS rank known players jss t st).2)).2 := rfl
    rw [e2, trialStep_snd_hero, trialStep_snd_board]
    exact ih

/-- The state-passing loop computes the same counts as the pure loop. -/
theorem simLoopS_counts (rank : List String → Nat) (known hero board : List String)
    (players : Int) (jss : Nat → List Nat) (n : Nat) (st : TrialState)
    (hh : st.heroArr = hero) (hb : st.boardArr = board) :
    (simLoopS rank known players jss n st).1 =
      simLoop rank known hero board players jss n := by
  induction n with
  | zero => rfl
  | succ t ih =>
    have hfr := simLoopS_state rank known players jss t st
    have htr : (trialStep rank known players (jss t)
        ((simLoopS rank known players jss t st).2)).1 =
        runTrial rank known hero board players (jss t) := by
      rw [trialStep_fst, hfr.1, hfr.2, hh, hb]
    have eL : (simLoopS rank known players jss (t + 1) st).1 =
        (match (trialStep rank known players (jss t)
            ((simLoopS rank known players jss t st).2)).1 with
         | .win => ((simLoopS rank known players jss t st).1.1 + 1,
             (simLoopS rank known players jss t st).1.2.1,
             (simLoopS rank known players jss t st).1.2.2)
         | .tie => ((simLoopS rank known players jss t st).1.1,
             (simLoopS rank known players jss t st).1.2.1 + 1,
             (simLoopS rank known players jss t st).1.2.2)
         | .loss => ((simLoopS rank known players jss t st).1.1,
             (simLoopS rank known players jss t st).1.2.1,
             (simLoopS rank known players jss t st).1.2.2 + 1)) := rfl
    have eR : simLoop rank known hero board players jss (t + 1) =
        (match runTrial rank known hero board players (jss t) with
         | .win => ((simLoop rank known hero board players jss t).1 + 1,
             (simLoop rank known hero board players jss t).2.1,
             (simLoop rank known hero board players jss t).2.2)
         | .tie => ((simLoop rank known hero board players jss t).1,
             (simLoop rank known hero board players jss t).2.1 + 1,
             (simLoop rank known hero board players jss t).2.2)
         | .loss => ((simLoop rank known hero board players jss t).1,
             (simLoop rank known hero board players jss t).2.1,
             (simLoop rank known hero board players jss t).2.2 + 1)) := rfl
    rw [eL, eR, htr, ih]

/-- **C10.** `simulateEquity` never mutates its inputs: tracking every
array the call can write, the caller's `hero` and `board` arrays hold
their original contents when the call returns — whether it returns a
result or throws a validation error — and the state-tracking embedding
returns exactly the same result as the pure one (per-trial writes only
ever touch the freshly allocated `deck` and `simBoard` copies). -/
theorem simulateEquity_frame (rank : List String → Nat) (players : Int)
    (hero board : List String) (iterations : Nat) (jss : Nat → List Nat) :
    (simulateEquityS rank players hero board iterations jss).2.1 = hero ∧
    (simulateEquityS rank players hero board iterations jss).2.2 = board ∧
    (simulateEquityS rank players hero board iterations jss).1 =
      simulateEquity rank players hero board iterations jss := by
  unfold simulateEquityS simulateEquity
  by_cases h1 : (knownOf hero board).length ≠
      ((hero ++ board).filter (fun c => c != "")).length
  · rw [if_pos h1, if_pos h1]
    exact ⟨rfl, rfl, rfl⟩
  · rw [if_neg h1, if_neg h1]
    by_cases h2 : players < 2 ∨ players > 10
    · rw [if_pos h2, if_pos h2]
      exact ⟨rfl, rfl, rfl⟩
    · rw [if_neg h2, if_neg h2]
      by_cases h3 : hero.getD 0 "" = "" ∨ hero.getD 1 "" = ""
      · rw [if_pos h3, if_pos h3]
        exact ⟨rfl, rfl, rfl⟩
      · rw [if_neg h3, if_neg h3]
        have hfr := simLoopS_state rank (knownOf hero board) players jss iterations
          ⟨hero, board, [], []⟩
        have hcnt := simLoopS_counts rank (knownOf hero board) hero board players jss
          iterations ⟨hero, board, [], []⟩ rfl rfl
        refine ⟨hfr.1, hfr.2, ?_⟩
        simp only [hcnt]

theorem getD_append_left (l r : List String) (n : Nat) (h : n < l.length) :
    (l ++ r).getD n "" = l.getD n "" := by
  rw [List.getD_eq_getElem _ _ (by rw [List.length_append]; omega),
      List.getD_eq_getElem _ _ h]
  exact List.getElem_append_left h

theorem getD_set_self (l : List String) (n : Nat) (a : String) (h : n < l.length) :
    (l.set n a).getD n "" = a := by
  rw [List.getD_eq_getElem _ _ (by simpa using h)]
  exact List.getElem_set_self (by simpa using h)

theorem swapList_self (l : List String) (i : Nat) (hi : i < l.length) :
    swapList l i i = l := by
  unfold swapList
  rw [List.getD_eq_getElem _ _ hi, List.set_set, set_getElem_self l i hi]

theorem swapList_append (l r : List String) (i j : Nat)
    (hi : i < l.length) (hj : j < l.length) :
    swapList (l ++ r) i j = swapList l i j ++ r := by
  unfold swapList
  rw [getD_append_left l r j hj, getD_append_left l r i hi,
      List.set_append_left _ _ hi,
      List.set_append_left _ _ (by rw [List.length_set]; exact hj)]

theorem fyGo_append (l r : List String) (i : Nat) (js : List Nat)
    (hi : i < l.length) (hb : ∀ k, k < js.length → js.getD k 0 ≤ i - k) :
    fyGo (l ++ r) i js = fyGo l i js ++ r := by
  induction js generalizing l i with
  | nil => cases i <;> simp [fyGo]
  | cons j js ih =>
    cases i with
    | zero => simp [fyGo]
    | succ i =>
      have hj : j ≤ i + 1 := by
        have := hb 0 (by simp)
        simpa using this
      have hswap := swapList_append l r (i + 1) j hi (by omega)
      simp only [fyGo, hswap]
      refine ih (swapList l (i + 1) j) i ?_ ?_
      · rw [swapList_length]
        omega
      · intro k hk
        have := hb (k + 1) (by simpa using hk)
        simpa using this

theorem swapList_getD_last (arr : List String) (m j : Nat)
    (hlen : arr.length = m + 2) (hj : j ≤ m + 1) :
    (swapList arr (m + 1) j).getD (m + 1) "" = arr.getD j "" := by
  rcases eq_or_ne j (m + 1) with rfl | hne
  · rw [swapList_self arr (m + 1) (by omega)]
  · unfold swapList
    rw [getD_set_ne _ j (m + 1) _ hne]
    exact getD_set_self arr (m + 1) _ (by omega)

theorem fyGo_cons_decomp (arr : List String) (m j : Nat) (js' : List Nat)
    (hlen : arr.length = m + 2) (hj : j ≤ m + 1)
    (hjs' : ∀ k, k < js'.length → js'.getD k 0 ≤ m - k) :
    fyGo arr (m + 1) (j :: js') =
      fyGo ((swapList arr (m + 1) j).take (m + 1)) m js' ++ [arr.getD j ""] := by
  have hslen : (swapList arr (m + 1) j).length = m + 2 := by
    rw [swapList_length, hlen]
  have hdropc : (swapList arr (m + 1) j).drop (m + 1) = [arr.getD j ""] := by
    rw [List.drop_eq_getElem_cons (by omega),
        List.drop_eq_nil_of_le (by omega)]
    have := swapList_getD_last arr m j hlen hj
    rw [List.getD_eq_getElem _ _ (by omega)] at this
    rw [this]
  have hsplit : swapList arr (m + 1) j =
      (swapList arr (m + 1) j).take (m + 1) ++ [arr.getD j ""] := by
    conv_lhs => rw [← List.take_append_drop (m + 1) (swapList arr (m + 1) j)]
    rw [hdropc]
  show fyGo (swapList arr (m + 1) j) m js' = _
  conv_lhs => rw [hsplit]
  refine fyGo_append _ _ m js' ?_ ?_
  · rw [List.length_take]
    omega
  · intro k hk
    exact hjs' k hk

theorem validChoices_cons (m j : Nat) (js' : List Nat) :
    ValidChoices (m + 2) (j :: js') ↔ (j ≤ m + 1 ∧ ValidChoices (m + 1) js') := by
  unfold ValidChoices
  constructor
  · rintro ⟨hl, hb⟩
    refine ⟨by simpa using hb 0 (by simp), by simpa using hl, ?_⟩
    intro k hk
    have := hb (k + 1) (by simpa using hk)
    simpa using this
  · rintro ⟨hj, hl, hb⟩
    refine ⟨by simpa using hl, ?_⟩
    intro k hk
    cases k with
    | zero => simpa using hj
    | succ k =>
      have := hb k (by simpa using hk)
      simpa using this

/-- Fisher–Yates bijectivity: on a duplicate-free array of length `n`,
every permutation is produced by exactly one valid stream of random
indices. -/
theorem fyGo_existsUnique : ∀ (n : Nat) (arr : List String), arr.length = n → arr.Nodup →
    ∀ l : List String, List.Perm l arr →
      ∃! js : List Nat, ValidChoices n js ∧ fyGo arr (n - 1) js = l := by
  intro n
  induction n using Nat.strong_induction_on with
  | _ n ih =>
    rcases n with _ | n
    · intro arr hlen _ l hperm
      have harr : arr = [] := List.length_eq_zero.mp hlen
      subst harr
      have hl : l = [] := by simpa using hperm.length_eq
      refine ⟨[], ⟨⟨rfl, by simp⟩, ?_⟩, ?_⟩
      · simp [fyGo, hl]
      · rintro js ⟨⟨hjl, _⟩, _⟩
        exact List.length_eq_zero.mp (by simpa using hjl)
    · rcases n with _ | m
      · intro arr hlen _ l hperm
        obtain ⟨a, ha⟩ := List.length_eq_one.mp hlen
        subst ha
        have hl : l = [a] := List.perm_singleton.mp hperm
        refine ⟨[], ⟨⟨rfl, by simp⟩, ?_⟩, ?_⟩
        · simp [fyGo, hl]
        · rintro js ⟨⟨hjl, _⟩, _⟩
          exact List.length_eq_zero.mp (by simpa using hjl)
      · intro arr hlen hnd l hperm
        show ∃! js : List Nat, ValidChoices (m + 2) js ∧ fyGo arr (m + 1) js = l
        have hlpos : l ≠ [] := by
          intro h
          subst h
          have := hperm.length_eq
          simp [hlen] at this
        obtain ⟨x, hxl, hld⟩ : ∃ x, x ∈ l ∧ l.dropLast ++ [x] = l :=
          ⟨l.getLast hlpos, List.getLast_mem hlpos, List.dropLast_append_getLast hlpos⟩
        have hxarr : x ∈ arr := hperm.subset hxl
        obtain ⟨j, hj, hgj⟩ : ∃ j, j ≤ m + 1 ∧ arr.getD j "" = x := by
          have hlt := List.indexOf_lt_length.mpr hxarr
          refine ⟨arr.indexOf x, by omega, ?_⟩
          rw [List.getD_eq_getElem _ _ hlt]
          exact List.getElem_indexOf _
        have hjlt : j < arr.length := by omega
        have hslen : (swapList arr (m + 1) j).length = m + 2 := by
          rw [swapList_length, hlen]
        have hsperm : List.Perm (swapList arr (m + 1) j) arr :=
          swapList_perm arr (m + 1) j (by omega) hjlt
        have hprelen : ((swapList arr (m + 1) j).take (m + 1)).length = m + 1 := by
          rw [List.length_take]
          omega
        have hsm1 : (swapList arr (m + 1) j).getD (m + 1) "" = x := by
          rw [swapList_getD_last arr m j hlen hj, hgj]
        have hsplit : swapList arr (m + 1) j =
            (swapList arr (m + 1) j).take (m + 1) ++ [x] := by
          conv_lhs => rw [← List.take_append_drop (m + 1) (swapList arr (m + 1) j)]
          congr 1
          rw [List.drop_eq_getElem_cons (by omega), List.drop_eq_nil_of_le (by omega)]
          rw [← List.getD_eq_getElem (swapList arr (m + 1) j) "" (by omega), hsm1]
        have hpre_x_perm : List.Perm ((swapList arr (m + 1) j).take (m + 1) ++ [x]) arr := by
          rw [← hsplit]
          exact hsperm
        have hpre_perm : List.Perm l.dropLast ((swapList arr (m + 1) j).take (m + 1)) := by
          have h1 : List.Perm (l.dropLast ++ [x])
              ((swapList arr (m + 1) j).take (m + 1) ++ [x]) := by
            rw [hld]
            exact hperm.trans hpre_x_perm.symm
          exact (List.perm_append_right_iff [x]).mp h1
        have hpre_nodup : ((swapList arr (m + 1) j).take (m + 1)).Nodup := by
          have hs_nodup : (swapList arr (m + 1) j).Nodup := hsperm.nodup_iff.mpr hnd
          exact (List.take_sublist _ _).nodup hs_nodup
        have hih := ih (m + 1) (by omega) ((swapList arr (m + 1) j).take (m + 1))
          hprelen hpre_nodup l.dropLast hpre_perm
        simp only [Nat.add_sub_cancel] at hih
        obtain ⟨js', ⟨hjs'v, hjs'e⟩, hjs'u⟩ := hih
        have hjs'bound : ∀ k, k < js'.length → js'.getD k 0 ≤ m - k := by
          intro k hk
          have := hjs'v.2 k hk
          simpa using this
        have hdecomp := fyGo_cons_decomp arr m j js' hlen hj hjs'bound
        refine ⟨j :: js', ⟨(validChoices_cons m j js').mpr ⟨hj, hjs'v⟩, ?_⟩, ?_⟩
        · rw [hdecomp, hgj, hjs'e]
          exact hld
        · rintro js ⟨hv, he⟩
          have hlenjs : js.length = m + 1 := by simpa using hv.1
          cases js with
          | nil => simp at hlenjs
          | cons k ks =>
            obtain ⟨hk, hksv⟩ := (validChoices_cons m k ks).mp hv
            have hksbound : ∀ q, q < ks.length → ks.getD q 0 ≤ m - q := by
              intro q hq
              have := hksv.2 q hq
              simpa using this
            have hdk := fyGo_cons_decomp arr m k ks hlen hk hksbound
            have he' : fyGo ((swapList arr (m + 1) k).take (m + 1)) m ks ++ [arr.getD k ""] =
                l.dropLast ++ [x] := by
              rw [← hdk, hld]
              exact he
            have hinj := List.append_inj' he' (by simp)
            have hkx : arr.getD k "" = x := by
              have h2 := hinj.2
              simpa using h2
            have hklt : k < arr.length := by omega
            have hkj : k = j := by
              apply (List.Nodup.getElem_inj_iff hnd).mp
              rw [← List.getD_eq_getElem arr "" hklt, ← List.getD_eq_getElem arr "" hjlt,
                hkx, hgj]
            subst hkj
            have hpk : fyGo ((swapList arr (m + 1) k).take (m + 1)) m ks = l.dropLast :=
              hinj.1
            have hke : ks = js' := hjs'u ks ⟨hksv, hpk⟩
            rw [hke]

/-- **C9.** `shuffleInPlace` is the exchange shuffle that iterates from the
last index down to `1`, at each step swapping the current position with a
position chosen from `0..current` inclusive (this is the definition of
`shuffleInPlace`/`fyGo`, the choice stream being
`Math.floor(Math.random()*(i+1)) ∈ [0,i]` as recorded by `ValidChoices`).
Its output is a permutation of its input for every valid choice stream;
and on a duplicate-free deck the map from valid choice streams to outputs
is a bijection onto the permutations of the deck — each permutation is
produced by exactly one valid stream — so a uniform random source (all
valid streams equally likely) makes every permutation equally likely. -/
theorem shuffleInPlace_spec (arr : List String) :
    (∀ js, ValidChoices arr.length js → List.Perm (shuffleInPlace arr js) arr) ∧
    (arr.Nodup → ∀ l, List.Perm l arr →
      ∃! js : List Nat, ValidChoices arr.length js ∧ shuffleInPlace arr js = l) := by
  constructor
  · intro js hjs
    exact shuffleInPlace_perm arr js hjs
  · intro hnd l hl
    exact fyGo_existsUnique arr.length arr rfl hnd l hl

/-- Witness for C9 on a concrete three-card deck. -/
theorem shuffleInPlace_spec_witness :
    ValidChoices (["As", "Ks", "Qs"] : List String).length [0, 1] ∧
    List.Perm (shuffleInPlace ["As", "Ks", "Qs"] [0, 1]) ["As", "Ks", "Qs"] ∧
    (["As", "Ks", "Qs"] : List String).Nodup ∧
    (∃! js : List Nat, ValidChoices (["As", "Ks", "Qs"] : List String).length js ∧
      shuffleInPlace ["As", "Ks", "Qs"] js = ["Qs", "As", "Ks"]) :=
  ⟨by decide, (shuffleInPlace_spec ["As", "Ks", "Qs"]).1 [0, 1] (by decide), by decide,
   (shuffleInPlace_spec ["As", "Ks", "Qs"]).2 (by decide) ["Qs", "As", "Ks"] (by decide)⟩
